import Mathlib

/-!
Verification of the group-maker core (src/app/page.tsx).

Shallow embedding of the core functions: the forbidden-pair builder,
the Fisher-Yates shuffle, the chunking partition constructor, the
scoring functions and the simulated-annealing optimizer.  JavaScript
numbers are modelled as rationals; the ambient `Math.random ()` source
is modelled as explicit streams of naturals (index draws) and booleans
(the outcome of the Metropolis test `Math.random () < exp (-delta/temp)`,
which is the only place the temperature is consumed, so the linear
temperature schedule itself does not appear in the embedding).
-/

namespace GroupMaker

/-- Gender attribute: `"f" | "m" | "x" | "na"` in the source. -/
inductive Gender
  | f | m | x | na
deriving DecidableEq, Repr

/-- Academic level: `"bachelor" | "master"` or the unknown marker `"na"`. -/
inductive Level
  | bachelor | master | na
deriving DecidableEq, Repr

/-- Exchange status: `true | false | "na"` in the source; `yes` models
`true` and `no` models `false`. -/
inductive Exchange
  | yes | no | na
deriving DecidableEq, Repr

/-- The `Student` record of the source. -/
structure Student where
  id : String
  name : String
  gender : Gender
  level : Level
  exchange : Exchange
deriving DecidableEq, Repr

/-- Lexicographic comparison of character lists by code point,
modelling JavaScript's `<` on strings (code-unit lexicographic; a
proper prefix is smaller). -/
def charsLtb : List Char → List Char → Bool
  | _, [] => false
  | [], _ :: _ => true
  | a :: as, b :: bs =>
      if a.toNat < b.toNat then true
      else if b.toNat < a.toNat then false
      else charsLtb as bs

/-- JavaScript string comparison `a < b`, as an executable Boolean. -/
def strLtb (a b : String) : Bool :=
  charsLtb a.data b.data

/-- The canonical key of an unordered id pair:
`a < b ? a + "||" + b : b + "||" + a`. -/
def pairKey (a b : String) : String :=
  if strLtb a b then a ++ "||" ++ b else b ++ "||" ++ a

/-- The keys inserted for one group by the nested loops
`for i; for j > i; set.add (key g[i].id g[j].id)` of
`buildForbiddenPairs`, in insertion order. -/
def groupPairKeys : List Student → List String
  | [] => []
  | s :: rest => rest.map (fun t => pairKey s.id t.id) ++ groupPairKeys rest

/-- `buildForbiddenPairs`: the set of all keys inserted while looping
over every group of the history. -/
def buildForbiddenPairs (previousGroups : List (List Student)) : Finset String :=
  ((previousGroups.map groupPairKeys).flatten).toFinset

/-- Swap the elements at positions `i` and `j` (identity when either
index is out of range — never the case in the shuffle below). -/
def listSwap (l : List α) (i j : Nat) : List α :=
  match l[i]?, l[j]? with
  | some a, some b => (l.set i b).set j a
  | _, _ => l

/-- The Fisher-Yates loop of `shuffle`: for `i` from `l.length - 1`
down to `1`, swap position `i` with position `rs i % (i + 1)`, where
`rs i` models the draw `Math.floor (rng () * (i + 1))`. -/
def shuffleAux (rs : Nat → Nat) : Nat → List α → List α
  | 0, a => a
  | i + 1, a => shuffleAux rs i (listSwap a (i + 1) (rs (i + 1) % (i + 2)))

/-- `shuffle`: copy the array, then run the Fisher-Yates loop. -/
def shuffle (l : List α) (rs : Nat → Nat) : List α :=
  shuffleAux rs (l.length - 1) l

/-- Slicing loop of `chunkGroups`, structurally recursive on a fuel
counter so that it computes by kernel reduction. -/
def chunkGroupsAux (s : Nat) : Nat → List α → List (List α)
  | _, [] => []
  | 0, _ :: _ => []
  | fuel + 1, x :: xs => ((x :: xs).take s) :: chunkGroupsAux s fuel ((x :: xs).drop s)

/-- `chunkGroups`: slice the list into contiguous runs of `groupSize`
(`for (i = 0; i < n; i += groupSize) push (slice i (i + groupSize))`).
The fuel starts at `l.length`; each pass drops at least one element
when `groupSize ≥ 1`, so the fuel never runs out (`chunkGroups_cons`
below recovers the natural recursion).  With `groupSize = 0` the
source loop never terminates; the embedding returns `[]` there, a case
no caller reaches (`optimize` requires `groupSize ≥ 2`). -/
def chunkGroups (l : List α) (groupSize : Nat) : List (List α) :=
  match groupSize with
  | 0 => []
  | s + 1 => chunkGroupsAux (s + 1) l.length l

/-- The five weight scalars. -/
structure Weights where
  forbidPair : ℚ
  genderImbalance : ℚ
  levelImbalance : ℚ
  exchangeImbalance : ℚ
  sizeImbalance : ℚ
deriving DecidableEq, Repr

/-- `countBy group keyFn k`: the number of members whose key is `k`
(the record built by the source's fold maps each key to its number of
occurrences, absent keys reading back as `?? 0`). -/
def countBy {K : Type} [DecidableEq K] (group : List Student) (keyFn : Student → K)
    (k : K) : ℕ :=
  (group.map keyFn).count k

/-- The pair-repeat term of `groupScore`: the nested loops
`for i; for j > i; if key ∈ forbiddenPairs then score += w.forbidPair`. -/
def pairPenalty (forbiddenPairs : Finset String) (w : Weights) : List Student → ℚ
  | [] => 0
  | s :: rest =>
      (rest.map (fun t => if pairKey s.id t.id ∈ forbiddenPairs then w.forbidPair else 0)).sum
        + pairPenalty forbiddenPairs w rest

/-- `groupScore`: pair-repeat penalty, size penalty, and the three
attribute-balance penalties.  The source filters the gender count list
with `(v) => v > 0 || true`, a constantly-true predicate, so the list
is always the three known-gender counts `[f, m, x]`. -/
def groupScore (group : List Student) (forbiddenPairs : Finset String)
    (targetSize : ℕ) (w : Weights) : ℚ :=
  let pairScore := pairPenalty forbiddenPairs w group
  let sizeScore := w.sizeImbalance * |(group.length : ℚ) - (targetSize : ℚ)|
  let gf := countBy group (·.gender) Gender.f
  let gm := countBy group (·.gender) Gender.m
  let gx := countBy group (·.gender) Gender.x
  let genderScore : ℚ :=
    if 2 ≤ gf + gm + gx then
      w.genderImbalance * ((max gf (max gm gx) - min gf (min gm gx) : ℕ) : ℚ)
    else 0
  let lb := countBy group (·.level) Level.bachelor
  let lm := countBy group (·.level) Level.master
  let levelScore : ℚ :=
    if 2 ≤ lb + lm then w.levelImbalance * |(lb : ℚ) - (lm : ℚ)| else 0
  let et := countBy group (·.exchange) Exchange.yes
  let ef := countBy group (·.exchange) Exchange.no
  let exchangeScore : ℚ :=
    if 2 ≤ et + ef then w.exchangeImbalance * |(et : ℚ) - (ef : ℚ)| else 0
  pairScore + sizeScore + genderScore + levelScore + exchangeScore

/-- `totalScore`: `groups.reduce ((acc, g) => acc + groupScore g …, 0)`. -/
def totalScore (groups : List (List Student)) (forbiddenPairs : Finset String)
    (targetSize : ℕ) (w : Weights) : ℚ :=
  groups.foldl (fun acc g => acc + groupScore g forbiddenPairs targetSize w) 0

/-- The injected random source: per-iteration index draws for the
shuffle (`shuf`), the two group picks (`giR`, `gjR`), the two member
picks (`memR`, `memR2`), and the Metropolis coin (`accept`, the outcome
of `Math.random () < exp (-delta/temp)`). -/
structure RandomSource where
  shuf : ℕ → ℕ
  giR : ℕ → ℕ
  gjR : ℕ → ℕ
  memR : ℕ → ℕ
  memR2 : ℕ → ℕ
  accept : ℕ → Bool

/-- The mutable state of the annealing loop: current partition and
score, best partition and score, and whether the `bestScore === 0`
early exit has fired. -/
structure OptState where
  cur : List (List Student)
  curScore : ℚ
  best : List (List Student)
  bestScore : ℚ
  done : Bool
deriving Repr

/-- Placeholder for an indexing default; every read below is in
bounds, so it is never produced. -/
def dummyStudent : Student := ⟨"", "", Gender.na, Level.na, Exchange.na⟩

/-- The in-place member exchange of the annealing loop:
`const a = g1[i]; const b = g2[j]; g1[i] = b; g2[j] = a`.  The two
writes are replayed in order on the functional state (the group at
`gj` is re-read after the first write), which reproduces the aliased
behaviour when `gi = gj`. -/
def doSwap (cur : List (List Student)) (gi gj i j : ℕ) : List (List Student) :=
  let g1 := cur.getD gi []
  let g2 := cur.getD gj []
  let a := g1.getD i dummyStudent
  let b := g2.getD j dummyStudent
  let cur1 := cur.set gi (g1.set i b)
  cur1.set gj ((cur1.getD gj []).set j a)

/-- One iteration `t` of the annealing loop of
`generateGroupsOptimized`.  `gj` re-rolls while it equals `gi`
(`while (gj === gi)`), which is modelled as a uniformly distributed
index different from `gi` when more than one group exists.  A
`continue` on an empty pick skips the rest of the body including the
`bestScore === 0` break check. -/
def optStep (forbiddenPairs : Finset String) (targetSize : ℕ) (w : Weights)
    (rnd : RandomSource) (st : OptState) (t : ℕ) : OptState :=
  if st.done then st else
  let groupCount := st.cur.length
  let gi := rnd.giR t % groupCount
  let gj :=
    if 1 < groupCount then (gi + 1 + rnd.gjR t % (groupCount - 1)) % groupCount
    else rnd.gjR t % groupCount
  let g1 := st.cur.getD gi []
  let g2 := st.cur.getD gj []
  if g1.length = 0 ∨ g2.length = 0 then st else
  let i := rnd.memR t % g1.length
  let j := rnd.memR2 t % g2.length
  let cur2 := doSwap st.cur gi gj i j
  let newScore := totalScore cur2 forbiddenPairs targetSize w
  let saysYes : Bool := decide (newScore - st.curScore ≤ 0) || rnd.accept t
  if saysYes then
    let improved : Bool := decide (newScore < st.bestScore)
    let newBestScore := if improved then newScore else st.bestScore
    { cur := cur2, curScore := newScore,
      best := if improved then cur2 else st.best,
      bestScore := newBestScore,
      done := decide (newBestScore = 0) }
  else
    { st with done := decide (st.bestScore = 0) }

/-- `generateGroupsOptimized` (`optimize`): reject `groupSize < 2`,
return the empty result on an empty roster, otherwise chunk a shuffled
copy and run the annealing loop for `attempts` iterations. -/
def generateGroupsOptimized (students : List Student) (groupSize : ℕ)
    (forbiddenPairs : Finset String) (attempts : ℕ) (w : Weights) (rnd : RandomSource) :
    Except String (List (List Student) × ℚ) :=
  if groupSize < 2 then .error "groupSize must be >= 2"
  else if students.length = 0 then .ok ([], 0)
  else
    let bestGroups := chunkGroups (shuffle students rnd.shuf) groupSize
    let bestScore := totalScore bestGroups forbiddenPairs groupSize w
    let init : OptState := ⟨bestGroups, bestScore, bestGroups, bestScore, false⟩
    let final := (List.range attempts).foldl (optStep forbiddenPairs groupSize w rnd) init
    .ok (final.best, final.bestScore)

/-- `groupScore` with the gender-balance block removed: the sum of the
pair-repeat, size, level-balance and exchange-balance terms.  Used to
state that `groupScore` adds exactly the gender spread term on top of
the other terms. -/
def groupScoreWithoutGender (group : List Student) (forbiddenPairs : Finset String)
    (targetSize : ℕ) (w : Weights) : ℚ :=
  let pairScore := pairPenalty forbiddenPairs w group
  let sizeScore := w.sizeImbalance * |(group.length : ℚ) - (targetSize : ℚ)|
  let lb := countBy group (·.level) Level.bachelor
  let lm := countBy group (·.level) Level.master
  let levelScore : ℚ :=
    if 2 ≤ lb + lm then w.levelImbalance * |(lb : ℚ) - (lm : ℚ)| else 0
  let et := countBy group (·.exchange) Exchange.yes
  let ef := countBy group (·.exchange) Exchange.no
  let exchangeScore : ℚ :=
    if 2 ≤ et + ef then w.exchangeImbalance * |(et : ℚ) - (ef : ℚ)| else 0
  pairScore + sizeScore + levelScore + exchangeScore

/-- The default weight configuration of the page
(`forbidPair = 250, gender = 6, level = 4, exchange = 4, size = 1`). -/
def defaultWeights : Weights := ⟨250, 6, 4, 4, 1⟩

/-- A deterministic random source that always draws `0` and always
rejects the Metropolis coin; used for concrete runs. -/
def zeroRand : RandomSource :=
  ⟨fun _ => 0, fun _ => 0, fun _ => 0, fun _ => 0, fun _ => 0, fun _ => false⟩

/-- A student with the given id and all attributes unknown. -/
def studentNA (i : String) : Student := ⟨i, i, Gender.na, Level.na, Exchange.na⟩

/-- A student with the given id and gender, other attributes unknown. -/
def studentG (i : String) (g : Gender) : Student := ⟨i, i, g, Level.na, Exchange.na⟩

instance : DecidableEq (Except String (List (List Student) × ℚ)) := fun x y =>
  match x, y with
  | .error a, .error b =>
      if h : a = b then Decidable.isTrue (by rw [h])
      else Decidable.isFalse (fun hc => h (Except.error.inj hc))
  | .ok a, .ok b =>
      if h : a = b then Decidable.isTrue (by rw [h])
      else Decidable.isFalse (fun hc => h (Except.ok.inj hc))
  | .error _, .ok _ => Decidable.isFalse Except.noConfusion
  | .ok _, .error _ => Decidable.isFalse Except.noConfusion

/-! ### Generic list lemmas -/

theorem get_cons_set_perm (l : List α) (k : ℕ) (x : α) (hk : k < l.length) :
    List.Perm (l[k] :: l.set k x) (x :: l) := by
  induction l generalizing k with
  | nil => simp at hk
  | cons a t ih =>
    cases k with
    | zero => simpa using List.Perm.swap x a t
    | succ k =>
      have hk' : k < t.length := by simpa using hk
      simp only [List.getElem_cons_succ, List.set_cons_succ]
      exact ((List.Perm.swap a t[k] (t.set k x)).trans
        ((ih k hk').cons a)).trans (List.Perm.swap x a t)

theorem set_getElem_self_eq (l : List α) (k : ℕ) (hk : k < l.length) :
    l.set k l[k] = l := by
  induction l generalizing k with
  | nil => simp at hk
  | cons a t ih =>
    cases k with
    | zero => rfl
    | succ k =>
      have hk' : k < t.length := by simpa using hk
      simp [List.set_cons_succ, ih k hk']

theorem listSwap_perm (l : List α) (i j : ℕ) : List.Perm (listSwap l i j) l := by
  unfold listSwap
  cases hi : l[i]? with
  | none => exact List.Perm.refl l
  | some a =>
    cases hj : l[j]? with
    | none => exact List.Perm.refl l
    | some b =>
      have hi' : i < l.length := by
        by_contra h
        rw [List.getElem?_eq_none (Nat.le_of_not_lt h)] at hi
        exact Option.noConfusion hi
      have hj' : j < l.length := by
        by_contra h
        rw [List.getElem?_eq_none (Nat.le_of_not_lt h)] at hj
        exact Option.noConfusion hj
      have ha : l[i] = a := by
        rw [List.getElem?_eq_getElem hi'] at hi
        exact Option.some.inj hi
      have hb : l[j] = b := by
        rw [List.getElem?_eq_getElem hj'] at hj
        exact Option.some.inj hj
      by_cases hij : i = j
      · subst hij
        show List.Perm ((l.set i b).set i a) l
        rw [List.set_set, ← ha, set_getElem_self_eq l i hi']
      · show List.Perm ((l.set i b).set j a) l
        have hjlen : j < (l.set i b).length := by simpa using hj'
        have hjb : (l.set i b)[j] = b := by
          rw [List.getElem_set_ne hij, hb]
        have h2 := get_cons_set_perm (l.set i b) j a hjlen
        rw [hjb] at h2
        have h1 := get_cons_set_perm l i b hi'
        rw [ha] at h1
        exact List.Perm.cons_inv (h2.trans h1)

theorem shuffleAux_perm (rs : ℕ → ℕ) : ∀ (n : ℕ) (l : List α),
    List.Perm (shuffleAux rs n l) l
  | 0, _ => List.Perm.refl _
  | n + 1, l =>
    (shuffleAux_perm rs n (listSwap l (n + 1) (rs (n + 1) % (n + 2)))).trans
      (listSwap_perm l (n + 1) (rs (n + 1) % (n + 2)))

theorem shuffle_perm (l : List α) (rs : ℕ → ℕ) : List.Perm (shuffle l rs) l :=
  shuffleAux_perm rs (l.length - 1) l

theorem chunkGroupsAux_flatten (s : ℕ) (hs : 1 ≤ s) :
    ∀ (fuel : ℕ) (l : List α), l.length ≤ fuel →
      (chunkGroupsAux s fuel l).flatten = l := by
  intro fuel
  induction fuel with
  | zero =>
    intro l hl
    match l, hl with
    | [], _ => rfl
  | succ fuel ih =>
    intro l hl
    match l with
    | [] => rfl
    | x :: xs =>
      have hdrop : ((x :: xs).drop s).length ≤ fuel := by
        simp only [List.length_drop, List.length_cons]
        simp only [List.length_cons] at hl
        omega
      simp only [chunkGroupsAux, List.flatten_cons]
      rw [ih ((x :: xs).drop s) hdrop]
      exact List.take_append_drop s (x :: xs)

theorem chunkGroups_flatten (l : List α) (s : ℕ) (hs : 1 ≤ s) :
    (chunkGroups l s).flatten = l := by
  obtain ⟨s', rfl⟩ : ∃ s', s = s' + 1 := ⟨s - 1, by omega⟩
  exact chunkGroupsAux_flatten (s' + 1) hs l.length l (Nat.le_refl _)

theorem chunkGroups_nil (s : ℕ) : chunkGroups ([] : List α) s = [] := by
  cases s <;> rfl

theorem foldl_preserve {σ τ : Type _} {f : σ → τ → σ} {P : σ → Prop}
    (hf : ∀ s t, P s → P (f s t)) :
    ∀ (l : List τ) (s : σ), P s → P (l.foldl f s)
  | [], _, hs => hs
  | t :: l, s, hs => foldl_preserve hf l (f s t) (hf s t hs)

/-! ### Multiset bookkeeping for the swap step -/

/-- The members of a partition, as a multiset. -/
def partMS (gs : List (List Student)) : Multiset Student :=
  (gs.flatten : Multiset Student)

theorem coe_set_getD (g : List α) (i : ℕ) (x d : α) (hi : i < g.length) :
    g.getD i d ::ₘ (↑(g.set i x) : Multiset α) = x ::ₘ ↑g := by
  rw [List.getD_eq_getElem g d hi, Multiset.cons_coe, Multiset.cons_coe]
  exact Multiset.coe_eq_coe.2 (get_cons_set_perm g i x hi)

theorem flatten_set_getD (gs : List (List α)) (k : ℕ) (x : List α) (hk : k < gs.length) :
    (↑(gs.getD k []) : Multiset α) + ↑(gs.set k x).flatten = ↑x + ↑gs.flatten := by
  have hp := (get_cons_set_perm gs k x hk).flatten
  rw [List.flatten_cons, List.flatten_cons] at hp
  have hc := Multiset.coe_eq_coe.2 hp
  rw [← Multiset.coe_add, ← Multiset.coe_add] at hc
  rw [List.getD_eq_getElem gs [] hk]
  exact hc

theorem doSwap_G2_facts (cur : List (List Student)) (gi gj i j : ℕ)
    (hgi : gi < cur.length) (hgj : gj < cur.length)
    (hi : i < (cur.getD gi []).length) (hj : j < (cur.getD gj []).length) :
    ((cur.set gi ((cur.getD gi []).set i
        ((cur.getD gj []).getD j dummyStudent))).getD gj []).length
      = (cur.getD gj []).length ∧
    ((cur.set gi ((cur.getD gi []).set i
        ((cur.getD gj []).getD j dummyStudent))).getD gj []).getD j dummyStudent
      = (cur.getD gj []).getD j dummyStudent := by
  set g1 := cur.getD gi [] with hg1
  set g2 := cur.getD gj [] with hg2
  set b := g2.getD j dummyStudent with hb
  by_cases hij : gi = gj
  · subst hij
    have hgi1 : gi < (cur.set gi (g1.set i b)).length := by simpa using hgi
    have e1 : (cur.set gi (g1.set i b)).getD gi [] = g1.set i b := by
      rw [List.getD_eq_getElem _ _ hgi1]
      exact List.getElem_set_self _
    have hgg : g1 = g2 := hg1.trans hg2.symm
    refine ⟨?_, ?_⟩
    · rw [e1, List.length_set, hgg]
    · rw [e1]
      by_cases hji : j = i
      · subst hji
        have hjs : j < (g1.set j b).length := by
          rw [List.length_set, hgg]; exact hj
        rw [List.getD_eq_getElem _ _ hjs, List.getElem_set_self]
      · have hjs : j < (g1.set i b).length := by
          rw [List.length_set, hgg]; exact hj
        have hjg1 : j < g1.length := by rw [hgg]; exact hj
        rw [List.getD_eq_getElem _ _ hjs,
          List.getElem_set_ne (fun h => hji h.symm),
          ← List.getD_eq_getElem g1 dummyStudent hjg1, hgg]
  · have hgj1 : gj < (cur.set gi (g1.set i b)).length := by simpa using hgj
    have e1 : (cur.set gi (g1.set i b)).getD gj [] = g2 := by
      rw [List.getD_eq_getElem _ _ hgj1, List.getElem_set_ne hij, hg2,
        List.getD_eq_getElem _ _ hgj]
    exact ⟨by rw [e1], by rw [e1]⟩

theorem doSwap_partMS (cur : List (List Student)) (gi gj i j : ℕ)
    (hgi : gi < cur.length) (hgj : gj < cur.length)
    (hi : i < (cur.getD gi []).length) (hj : j < (cur.getD gj []).length) :
    partMS (doSwap cur gi gj i j) = partMS cur := by
  obtain ⟨hflen, hfgetD⟩ := doSwap_G2_facts cur gi gj i j hgi hgj hi hj
  simp only [doSwap, partMS]
  set g1 := cur.getD gi [] with hg1
  set g2 := cur.getD gj [] with hg2
  set a := g1.getD i dummyStudent with ha
  set b := g2.getD j dummyStudent with hb
  set cur1 := cur.set gi (g1.set i b) with hcur1
  set G2 := cur1.getD gj [] with hG2
  have hjG : j < G2.length := by rw [hflen]; exact hj
  have hgj1 : gj < cur1.length := by rw [hcur1, List.length_set]; exact hgj
  have hA := flatten_set_getD cur gi (g1.set i b) hgi
  have hB := flatten_set_getD cur1 gj (G2.set j a) hgj1
  have hC := coe_set_getD g1 i b dummyStudent hi
  have hD := coe_set_getD G2 j a dummyStudent hjG
  rw [← hg1, ← hcur1] at hA
  rw [← hG2] at hB
  rw [← ha] at hC
  rw [hfgetD] at hD
  refine Multiset.ext.2 fun x => ?_
  have cA := congrArg (Multiset.count x) hA
  have cB := congrArg (Multiset.count x) hB
  have cC := congrArg (Multiset.count x) hC
  have cD := congrArg (Multiset.count x) hD
  simp only [Multiset.count_add, Multiset.count_cons] at cA cB cC cD
  by_cases hxa : x = a <;> by_cases hxb : x = b <;>
    simp [hxa, hxb] at cA cB cC cD ⊢ <;>
    omega

theorem doSwap_lens (cur : List (List Student)) (gi gj i j : ℕ)
    (hgi : gi < cur.length) (hgj : gj < cur.length)
    (hi : i < (cur.getD gi []).length) (hj : j < (cur.getD gj []).length) :
    (doSwap cur gi gj i j).map List.length = cur.map List.length := by
  obtain ⟨hflen, _⟩ := doSwap_G2_facts cur gi gj i j hgi hgj hi hj
  simp only [doSwap]
  set g1 := cur.getD gi [] with hg1
  set g2 := cur.getD gj [] with hg2
  set a := g1.getD i dummyStudent with ha
  set b := g2.getD j dummyStudent with hb
  set cur1 := cur.set gi (g1.set i b) with hcur1
  set G2 := cur1.getD gj [] with hG2
  have hgim : gi < (cur.map List.length).length := by simpa using hgi
  have hgjm : gj < (cur.map List.length).length := by simpa using hgj
  have hgmap : (cur.map List.length)[gi] = g1.length := by
    rw [List.getElem_map, hg1, List.getD_eq_getElem _ _ hgi]
  have hmap1 : cur1.map List.length = cur.map List.length := by
    rw [hcur1, List.map_set, List.length_set, ← hgmap,
      set_getElem_self_eq _ _ hgim]
  have hgjmap : (cur.map List.length)[gj] = g2.length := by
    rw [List.getElem_map, hg2, List.getD_eq_getElem _ _ hgj]
  rw [List.map_set, List.length_set, hflen, hmap1, ← hgjmap,
    set_getElem_self_eq _ _ hgjm]

theorem swap_branch_spec (cur : List (List Student)) (gi gj r1 r2 : ℕ)
    (h1 : (cur.getD gi []).length ≠ 0) (h2 : (cur.getD gj []).length ≠ 0) :
    partMS (doSwap cur gi gj (r1 % (cur.getD gi []).length)
        (r2 % (cur.getD gj []).length)) = partMS cur ∧
    (doSwap cur gi gj (r1 % (cur.getD gi []).length)
        (r2 % (cur.getD gj []).length)).map List.length
      = cur.map List.length := by
  have hgilt : gi < cur.length := by
    by_contra hc
    rw [List.getD_eq_default _ _ (Nat.le_of_not_lt hc)] at h1
    exact h1 rfl
  have hgjlt : gj < cur.length := by
    by_contra hc
    rw [List.getD_eq_default _ _ (Nat.le_of_not_lt hc)] at h2
    exact h2 rfl
  have hilt : r1 % (cur.getD gi []).length < (cur.getD gi []).length :=
    Nat.mod_lt _ (Nat.pos_of_ne_zero h1)
  have hjlt : r2 % (cur.getD gj []).length < (cur.getD gj []).length :=
    Nat.mod_lt _ (Nat.pos_of_ne_zero h2)
  exact ⟨doSwap_partMS _ _ _ _ _ hgilt hgjlt hilt hjlt,
    doSwap_lens _ _ _ _ _ hgilt hgjlt hilt hjlt⟩

theorem optStep_spec (fp : Finset String) (ts : ℕ) (w : Weights)
    (rnd : RandomSource) (st : OptState) (t : ℕ) :
    partMS (optStep fp ts w rnd st t).cur = partMS st.cur ∧
    (optStep fp ts w rnd st t).cur.map List.length = st.cur.map List.length ∧
    ((optStep fp ts w rnd st t).best = st.best ∨
      (optStep fp ts w rnd st t).best = (optStep fp ts w rnd st t).cur) ∧
    (optStep fp ts w rnd st t).bestScore ≤ st.bestScore := by
  simp only [optStep]
  split
  · exact ⟨rfl, rfl, Or.inl rfl, le_refl _⟩
  split
  all_goals
    split
    · exact ⟨rfl, rfl, Or.inl rfl, le_refl _⟩
    · rename_i hne
      push_neg at hne
      split
      · refine ⟨(swap_branch_spec _ _ _ _ _ hne.1 hne.2).1,
          (swap_branch_spec _ _ _ _ _ hne.1 hne.2).2, ?_, ?_⟩
        · split
          · exact Or.inr rfl
          · exact Or.inl rfl
        · split
          · rename_i himp
            exact le_of_lt (of_decide_eq_true himp)
          · exact le_refl _
      · exact ⟨rfl, rfl, Or.inl rfl, le_refl _⟩

theorem loop_invariant (fp : Finset String) (tsz : ℕ) (w : Weights)
    (rnd : RandomSource) (M : Multiset Student) (L : List ℕ) (B : ℚ)
    (l : List ℕ) (s : OptState)
    (h1 : partMS s.cur = M) (h2 : s.cur.map List.length = L)
    (h3 : partMS s.best = M) (h4 : s.best.map List.length = L)
    (h5 : s.bestScore ≤ B) :
    partMS (l.foldl (optStep fp tsz w rnd) s).best = M ∧
    (l.foldl (optStep fp tsz w rnd) s).best.map List.length = L ∧
    (l.foldl (optStep fp tsz w rnd) s).bestScore ≤ B := by
  have hstep : ∀ (st : OptState) (t : ℕ),
      (partMS st.cur = M ∧ st.cur.map List.length = L ∧
        partMS st.best = M ∧ st.best.map List.length = L ∧ st.bestScore ≤ B) →
      (partMS (optStep fp tsz w rnd st t).cur = M ∧
        (optStep fp tsz w rnd st t).cur.map List.length = L ∧
        partMS (optStep fp tsz w rnd st t).best = M ∧
        (optStep fp tsz w rnd st t).best.map List.length = L ∧
        (optStep fp tsz w rnd st t).bestScore ≤ B) := by
    intro st t hP
    obtain ⟨p1, p2, p3, p4, p5⟩ := hP
    obtain ⟨q1, q2, q3, q4⟩ := optStep_spec fp tsz w rnd st t
    refine ⟨q1.trans p1, q2.trans p2, ?_, ?_, le_trans q4 p5⟩
    · cases q3 with
      | inl e => rw [e]; exact p3
      | inr e => rw [e]; exact q1.trans p1
    · cases q3 with
      | inl e => rw [e]; exact p4
      | inr e => rw [e]; exact q2.trans p2
  have := foldl_preserve hstep l s ⟨h1, h2, h3, h4, h5⟩
  exact ⟨this.2.2.1, this.2.2.2.1, this.2.2.2.2⟩

theorem optimize_best_facts (students : List Student) (groupSize : ℕ)
    (fp : Finset String) (attempts : ℕ) (w : Weights) (rnd : RandomSource)
    (hsize : 2 ≤ groupSize) (gs : List (List Student)) (sc : ℚ)
    (hres : generateGroupsOptimized students groupSize fp attempts w rnd
      = Except.ok (gs, sc)) :
    partMS gs = (↑students : Multiset Student) ∧
    gs.map List.length
      = (chunkGroups (shuffle students rnd.shuf) groupSize).map List.length ∧
    sc ≤ totalScore (chunkGroups (shuffle students rnd.shuf) groupSize)
          fp groupSize w := by
  simp only [generateGroupsOptimized] at hres
  rw [if_neg (by omega)] at hres
  by_cases hemp : students.length = 0
  · rw [if_pos hemp] at hres
    simp only [Except.ok.injEq, Prod.mk.injEq] at hres
    obtain ⟨e1, e2⟩ := hres
    subst e1; subst e2
    have hnil : students = [] := List.length_eq_zero.1 hemp
    subst hnil
    have hsh : shuffle ([] : List Student) rnd.shuf = [] := rfl
    rw [hsh, chunkGroups_nil]
    exact ⟨rfl, rfl, le_refl 0⟩
  · rw [if_neg hemp] at hres
    simp only [Except.ok.injEq, Prod.mk.injEq] at hres
    obtain ⟨e1, e2⟩ := hres
    subst e1; subst e2
    have hM := loop_invariant fp groupSize w rnd
      (partMS (chunkGroups (shuffle students rnd.shuf) groupSize))
      ((chunkGroups (shuffle students rnd.shuf) groupSize).map List.length)
      (totalScore (chunkGroups (shuffle students rnd.shuf) groupSize)
        fp groupSize w)
      (List.range attempts)
      ⟨chunkGroups (shuffle students rnd.shuf) groupSize,
        totalScore (chunkGroups (shuffle students rnd.shuf) groupSize)
          fp groupSize w,
        chunkGroups (shuffle students rnd.shuf) groupSize,
        totalScore (chunkGroups (shuffle students rnd.shuf) groupSize)
          fp groupSize w, false⟩
      rfl rfl rfl rfl (le_refl _)
    have hchain : partMS (chunkGroups (shuffle students rnd.shuf) groupSize)
        = (↑students : Multiset Student) := by
      show (↑(chunkGroups (shuffle students rnd.shuf) groupSize).flatten
        : Multiset Student) = ↑students
      rw [chunkGroups_flatten _ _ (by omega)]
      exact Multiset.coe_eq_coe.2 (shuffle_perm students rnd.shuf)
    exact ⟨hM.1.trans hchain, hM.2.1, hM.2.2⟩

/-! ### Scoring lemmas -/

theorem pairPenalty_nonneg (fp : Finset String) (w : Weights)
    (hw : 0 ≤ w.forbidPair) : ∀ g : List Student, 0 ≤ pairPenalty fp w g
  | [] => le_refl 0
  | s :: rest => by
    simp only [pairPenalty]
    refine add_nonneg (List.sum_nonneg ?_) (pairPenalty_nonneg fp w hw rest)
    intro x hx
    obtain ⟨u, _, rfl⟩ := List.mem_map.1 hx
    split
    · exact hw
    · exact le_refl 0

theorem groupScore_nonneg (g : List Student) (fp : Finset String) (t : ℕ)
    (w : Weights) (h1 : 0 ≤ w.forbidPair) (h2 : 0 ≤ w.genderImbalance)
    (h3 : 0 ≤ w.levelImbalance) (h4 : 0 ≤ w.exchangeImbalance)
    (h5 : 0 ≤ w.sizeImbalance) : 0 ≤ groupScore g fp t w := by
  simp only [groupScore]
  refine add_nonneg (add_nonneg (add_nonneg (add_nonneg
    (pairPenalty_nonneg fp w h1 g) (mul_nonneg h5 (abs_nonneg _))) ?_) ?_) ?_
  · split
    · exact mul_nonneg h2 (Nat.cast_nonneg _)
    · exact le_refl 0
  · split
    · exact mul_nonneg h3 (abs_nonneg _)
    · exact le_refl 0
  · split
    · exact mul_nonneg h4 (abs_nonneg _)
    · exact le_refl 0

theorem totalScore_eq_sum (groups : List (List Student)) (fp : Finset String)
    (t : ℕ) (w : Weights) :
    totalScore groups fp t w
      = (groups.map fun g => groupScore g fp t w).sum := by
  suffices h : ∀ z : ℚ, groups.foldl (fun acc g => acc + groupScore g fp t w) z
      = z + (groups.map fun g => groupScore g fp t w).sum by
    simpa [totalScore] using h 0
  induction groups with
  | nil => intro z; simp
  | cons g rest ih =>
    intro z
    simp only [List.foldl_cons, List.map_cons, List.sum_cons, ih]
    ring

/-! ### Known-value counting bridges -/

theorem gender_known_count (g : List Student) :
    countBy g (·.gender) Gender.f + countBy g (·.gender) Gender.m
      + countBy g (·.gender) Gender.x
    = (g.filter (fun s => decide (s.gender ≠ Gender.na))).length := by
  induction g with
  | nil => rfl
  | cons s rest ih =>
    cases hsg : s.gender <;>
      simp [countBy, List.count_cons, List.filter_cons, hsg] at ih ⊢ <;> omega

theorem level_known_count (g : List Student) :
    countBy g (·.level) Level.bachelor + countBy g (·.level) Level.master
    = (g.filter (fun s => decide (s.level ≠ Level.na))).length := by
  induction g with
  | nil => rfl
  | cons s rest ih =>
    cases hsl : s.level <;>
      simp [countBy, List.count_cons, List.filter_cons, hsl] at ih ⊢ <;> omega

theorem exchange_known_count (g : List Student) :
    countBy g (·.exchange) Exchange.yes + countBy g (·.exchange) Exchange.no
    = (g.filter (fun s => decide (s.exchange ≠ Exchange.na))).length := by
  induction g with
  | nil => rfl
  | cons s rest ih =>
    cases hse : s.exchange <;>
      simp [countBy, List.count_cons, List.filter_cons, hse] at ih ⊢ <;> omega

theorem countBy_gender_filter (g : List Student) (k : Gender) :
    countBy g (·.gender) k
      = (g.filter (fun s => decide (s.gender = k))).length := by
  induction g with
  | nil => rfl
  | cons s rest ih =>
    simp only [countBy] at ih ⊢
    by_cases h : s.gender = k <;>
      simp [List.count_cons, List.filter_cons, h, ih]

theorem pairPenalty_eq_zero (fp : Finset String) (w : Weights)
    (g : List Student)
    (hg : List.Pairwise (fun s u => pairKey s.id u.id ∉ fp) g) :
    pairPenalty fp w g = 0 := by
  induction hg with
  | nil => rfl
  | cons hhead _ ih =>
    simp only [pairPenalty, ih, add_zero]
    refine List.sum_eq_zero ?_
    intro x hx
    obtain ⟨u, hu, rfl⟩ := List.mem_map.1 hx
    rw [if_neg (hhead u hu)]

/-! ### Claim theorems -/

/-- C1: for every entity list, every target group size ≥ 2, every
iteration budget ≥ 0, every forbidden-pair set, every weights
configuration and every sequence of random choices, the partition
returned by `generateGroupsOptimized` neither drops nor duplicates
entities: the multiset of entity ids across the returned groups equals
the multiset of ids of the input entity list. -/
theorem optimize_id_multiset_preserved (students : List Student) (groupSize : ℕ)
    (fp : Finset String) (attempts : ℕ) (w : Weights) (rnd : RandomSource)
    (hsize : 2 ≤ groupSize) (gs : List (List Student)) (sc : ℚ)
    (hres : generateGroupsOptimized students groupSize fp attempts w rnd
      = Except.ok (gs, sc)) :
    (↑(gs.flatten.map Student.id) : Multiset String)
      = ↑(students.map Student.id) := by
  have h := (optimize_best_facts students groupSize fp attempts w rnd
    hsize gs sc hres).1
  have h2 := congrArg (Multiset.map Student.id) h
  rwa [partMS, Multiset.map_coe, Multiset.map_coe] at h2

/-- Witness for C1: a concrete two-student run with budget 0 returns
the single chunked group of the shuffled roster, with the id multiset
preserved. -/
theorem optimize_id_multiset_preserved_witness :
    (↑([[studentNA "b", studentNA "a"]].flatten.map Student.id) : Multiset String)
      = ↑([studentNA "a", studentNA "b"].map Student.id) :=
  optimize_id_multiset_preserved [studentNA "a", studentNA "b"] 2 ∅ 0
    defaultWeights zeroRand (by omega) [[studentNA "b", studentNA "a"]] 0
    (by with_unfolding_all rfl)

/-- C4: for every non-empty entity list and every target group size
strictly less than 2, `generateGroupsOptimized` fails with the
InvalidConfiguration error instead of returning a result. -/
theorem optimize_small_size_error (students : List Student) (groupSize : ℕ)
    (fp : Finset String) (attempts : ℕ) (w : Weights) (rnd : RandomSource)
    (_hne : students ≠ []) (hlt : groupSize < 2) :
    generateGroupsOptimized students groupSize fp attempts w rnd
      = Except.error "groupSize must be >= 2" := by
  simp only [generateGroupsOptimized]
  rw [if_pos hlt]

/-- Witness for C4: one student, target size 1. -/
theorem optimize_small_size_error_witness :
    generateGroupsOptimized [studentNA "a"] 1 ∅ 0 defaultWeights zeroRand
      = Except.error "groupSize must be >= 2" :=
  optimize_small_size_error [studentNA "a"] 1 ∅ 0 defaultWeights zeroRand
    (by decide) (by omega)

/-- Counterexample to C5 as stated: with target group size 1 (the
claim quantifies over *every* target group size) the empty entity list
does not produce the empty partition with score 0 — the size guard
fires first and the call throws. -/
theorem optimize_empty_counterexample :
    generateGroupsOptimized ([] : List Student) 1 ∅ 0 defaultWeights zeroRand
      ≠ Except.ok (([] : List (List Student)), (0 : ℚ)) := by
  intro h
  rw [show generateGroupsOptimized ([] : List Student) 1 ∅ 0 defaultWeights
      zeroRand = Except.error "groupSize must be >= 2" from rfl] at h
  exact Except.noConfusion h

/-- C5, amended: for every target group size ≥ 2, every iteration
budget, every forbidden-pair set and every weights configuration,
`generateGroupsOptimized` applied to an empty entity list returns the
empty partition with score 0. -/
theorem optimize_empty_returns_empty (groupSize : ℕ) (fp : Finset String)
    (attempts : ℕ) (w : Weights) (rnd : RandomSource) (hsize : 2 ≤ groupSize) :
    generateGroupsOptimized [] groupSize fp attempts w rnd
      = Except.ok (([] : List (List Student)), (0 : ℚ)) := by
  simp only [generateGroupsOptimized]
  rw [if_neg (by omega),
    if_pos (show ([] : List Student).length = 0 from rfl)]

/-- Witness for the amended C5 at target size 2. -/
theorem optimize_empty_returns_empty_witness :
    generateGroupsOptimized [] 2 ∅ 1000 defaultWeights zeroRand
      = Except.ok (([] : List (List Student)), (0 : ℚ)) :=
  optimize_empty_returns_empty 2 ∅ 1000 defaultWeights zeroRand (by omega)

/-- C6: for every non-empty entity list, target size ≥ 2, iteration
budget, forbidden-pair set, weights and random choices, the score
returned by `generateGroupsOptimized` is at most the total score of
the very first constructed partition (the chunking of the shuffled
entity list); the best score is only ever replaced by a strictly lower
score during the search. -/
theorem optimize_score_le_initial (students : List Student) (groupSize : ℕ)
    (fp : Finset String) (attempts : ℕ) (w : Weights) (rnd : RandomSource)
    (_hne : students ≠ []) (hsize : 2 ≤ groupSize)
    (gs : List (List Student)) (sc : ℚ)
    (hres : generateGroupsOptimized students groupSize fp attempts w rnd
      = Except.ok (gs, sc)) :
    sc ≤ totalScore (chunkGroups (shuffle students rnd.shuf) groupSize)
          fp groupSize w :=
  (optimize_best_facts students groupSize fp attempts w rnd hsize gs sc hres).2.2

/-- Witness for C6 on a concrete two-student run with budget 3. -/
theorem optimize_score_le_initial_witness :
    (0 : ℚ) ≤ totalScore (chunkGroups
        (shuffle [studentNA "a", studentNA "b"] zeroRand.shuf) 2)
        ∅ 2 defaultWeights :=
  optimize_score_le_initial [studentNA "a", studentNA "b"] 2 ∅ 3
    defaultWeights zeroRand (by decide) (by omega)
    [[studentNA "b", studentNA "a"]] 0 (by with_unfolding_all rfl)

/-- C2: for every partition, forbidden-pair set, target size, and
weights configuration whose five scalars are non-negative, `totalScore`
equals the sum of `groupScore` over the partition's groups, and this
value is ≥ 0 (each `groupScore` is itself ≥ 0). -/
theorem totalScore_sum_nonneg (groups : List (List Student))
    (fp : Finset String) (t : ℕ) (w : Weights)
    (h1 : 0 ≤ w.forbidPair) (h2 : 0 ≤ w.genderImbalance)
    (h3 : 0 ≤ w.levelImbalance) (h4 : 0 ≤ w.exchangeImbalance)
    (h5 : 0 ≤ w.sizeImbalance) :
    totalScore groups fp t w
        = (groups.map fun g => groupScore g fp t w).sum ∧
    0 ≤ totalScore groups fp t w ∧
    ∀ g ∈ groups, 0 ≤ groupScore g fp t w := by
  refine ⟨totalScore_eq_sum groups fp t w, ?_,
    fun g _ => groupScore_nonneg g fp t w h1 h2 h3 h4 h5⟩
  rw [totalScore_eq_sum groups fp t w]
  refine List.sum_nonneg ?_
  intro x hx
  obtain ⟨g, _, rfl⟩ := List.mem_map.1 hx
  exact groupScore_nonneg g fp t w h1 h2 h3 h4 h5

/-- Witness for C2 on a concrete two-group partition with the default
weights. -/
theorem totalScore_sum_nonneg_witness :
    (totalScore [[studentNA "a", studentNA "b"], [studentNA "c"]] ∅ 2
        defaultWeights
      = ([[studentNA "a", studentNA "b"], [studentNA "c"]].map
          fun g => groupScore g ∅ 2 defaultWeights).sum ∧
    0 ≤ totalScore [[studentNA "a", studentNA "b"], [studentNA "c"]] ∅ 2
        defaultWeights ∧
    ∀ g ∈ [[studentNA "a", studentNA "b"], [studentNA "c"]],
      0 ≤ groupScore g ∅ 2 defaultWeights) :=
  totalScore_sum_nonneg [[studentNA "a", studentNA "b"], [studentNA "c"]] ∅ 2
    defaultWeights (by with_unfolding_all decide) (by with_unfolding_all decide)
    (by with_unfolding_all decide) (by with_unfolding_all decide)
    (by with_unfolding_all decide)

/-- C7: every group whose length equals the target size, containing no
pair (over two distinct positions) present in the forbidden-pair set,
and in which each tracked attribute has at most one member with a
known (non-`na`) value, scores exactly 0, for every weights
configuration. -/
theorem groupScore_zero_when_clean (g : List Student) (fp : Finset String)
    (t : ℕ) (w : Weights) (hlen : g.length = t)
    (hforb : ∀ i j : Fin g.length, i ≠ j →
      pairKey (g.get i).id (g.get j).id ∉ fp)
    (hg : (g.filter (fun s => decide (s.gender ≠ Gender.na))).length ≤ 1)
    (hl : (g.filter (fun s => decide (s.level ≠ Level.na))).length ≤ 1)
    (he : (g.filter (fun s => decide (s.exchange ≠ Exchange.na))).length ≤ 1) :
    groupScore g fp t w = 0 := by
  have hpw : List.Pairwise (fun s u => pairKey s.id u.id ∉ fp) g := by
    rw [List.pairwise_iff_get]
    intro i j hij
    exact hforb i j (Fin.ne_of_lt hij)
  have hgc := gender_known_count g
  have hlc := level_known_count g
  have hec := exchange_known_count g
  simp only [groupScore]
  rw [pairPenalty_eq_zero fp w g hpw, hlen, sub_self, abs_zero, mul_zero,
    if_neg (by omega), if_neg (by omega), if_neg (by omega)]
  norm_num

/-- Witness for C7: two all-unknown students, target size 2, empty
forbidden set, default weights. -/
theorem groupScore_zero_when_clean_witness :
    groupScore [studentNA "a", studentNA "b"] ∅ 2 defaultWeights = 0 :=
  groupScore_zero_when_clean [studentNA "a", studentNA "b"] ∅ 2 defaultWeights
    (by decide) (by decide) (by decide) (by decide) (by decide)

/-- C8: for every group with at least two members of known gender,
`groupScore` adds a gender-balance term equal to
`weights.genderImbalance * (max count - min count)` over the counts of
the three known gender categories `f`, `m`, `x`, where zero-count
categories still participate in the max/min comparison. -/
theorem groupScore_gender_term (g : List Student) (fp : Finset String)
    (t : ℕ) (w : Weights)
    (hknown : 2 ≤ (g.filter (fun s => decide (s.gender = Gender.f))).length
        + (g.filter (fun s => decide (s.gender = Gender.m))).length
        + (g.filter (fun s => decide (s.gender = Gender.x))).length) :
    groupScore g fp t w = groupScoreWithoutGender g fp t w
      + w.genderImbalance *
        ((max ((g.filter (fun s => decide (s.gender = Gender.f))).length)
            (max ((g.filter (fun s => decide (s.gender = Gender.m))).length)
              ((g.filter (fun s => decide (s.gender = Gender.x))).length))
          - min ((g.filter (fun s => decide (s.gender = Gender.f))).length)
            (min ((g.filter (fun s => decide (s.gender = Gender.m))).length)
              ((g.filter (fun s => decide (s.gender = Gender.x))).length))
          : ℕ) : ℚ) := by
  have hf := countBy_gender_filter g Gender.f
  have hm := countBy_gender_filter g Gender.m
  have hx := countBy_gender_filter g Gender.x
  simp only [groupScore, groupScoreWithoutGender]
  rw [hf, hm, hx, if_pos hknown]
  ring

/-- Witness for C8: a group of two `f` and two `m` members incurs a
gender penalty of `2 * weights.genderImbalance` — the zero count of
category `x` is the minimum. -/
theorem groupScore_gender_term_witness :
    groupScore [studentG "a" Gender.f, studentG "b" Gender.f,
        studentG "c" Gender.m, studentG "d" Gender.m] ∅ 4 defaultWeights
      = groupScoreWithoutGender [studentG "a" Gender.f, studentG "b" Gender.f,
          studentG "c" Gender.m, studentG "d" Gender.m] ∅ 4 defaultWeights
        + defaultWeights.genderImbalance * ((2 : ℕ) : ℚ) :=
  groupScore_gender_term [studentG "a" Gender.f, studentG "b" Gender.f,
    studentG "c" Gender.m, studentG "d" Gender.m] ∅ 4 defaultWeights (by decide)

/-! ### Symmetry of the pair key -/

theorem charsLtb_asymm : ∀ {x y : List Char},
    charsLtb x y = true → charsLtb y x = false := by
  intro x
  induction x with
  | nil =>
    intro y h
    cases y with
    | nil => simp [charsLtb] at h
    | cons b bs => rfl
  | cons a as ih =>
    intro y h
    cases y with
    | nil => simp [charsLtb] at h
    | cons b bs =>
      simp only [charsLtb] at h ⊢
      by_cases h1 : a.toNat < b.toNat
      · rw [if_neg (Nat.lt_asymm h1), if_pos h1]
      · by_cases h2 : b.toNat < a.toNat
        · rw [if_neg h1, if_pos h2] at h
          exact absurd h (by simp)
        · rw [if_neg h1, if_neg h2] at h
          rw [if_neg h2, if_neg h1]
          exact ih h

theorem charsLtb_conn : ∀ {x y : List Char},
    charsLtb x y = false → charsLtb y x = false → x = y := by
  intro x
  induction x with
  | nil =>
    intro y h1 _
    cases y with
    | nil => rfl
    | cons b bs => simp [charsLtb] at h1
  | cons a as ih =>
    intro y h1 h2
    cases y with
    | nil => simp [charsLtb] at h2
    | cons b bs =>
      simp only [charsLtb] at h1 h2
      by_cases hab : a.toNat < b.toNat
      · rw [if_pos hab] at h1
        exact absurd h1 (by simp)
      · by_cases hba : b.toNat < a.toNat
        · rw [if_pos hba] at h2
          exact absurd h2 (by simp)
        · rw [if_neg hab, if_neg hba] at h1
          rw [if_neg hba, if_neg hab] at h2
          have hv : a = b := Char.ext (UInt32.ext
            (Nat.le_antisymm (Nat.le_of_not_lt hba) (Nat.le_of_not_lt hab)))
          rw [hv, ih h1 h2]

theorem strLtb_conn (a b : String) :
    strLtb a b = false → strLtb b a = false → a = b :=
  fun h1 h2 => String.ext (charsLtb_conn h1 h2)

theorem pairKey_comm (a b : String) : pairKey a b = pairKey b a := by
  unfold pairKey
  cases h1 : strLtb a b <;> cases h2 : strLtb b a
  · rw [strLtb_conn a b h1 h2]
  · rfl
  · rfl
  · have := charsLtb_asymm (x := a.data) (y := b.data) h1
    rw [show charsLtb b.data a.data = strLtb b a from rfl, h2] at this
    exact absurd this (by simp)

theorem pairPenalty_perm (fp : Finset String) (w : Weights)
    {g g' : List Student} (hp : List.Perm g g') :
    pairPenalty fp w g = pairPenalty fp w g' := by
  induction hp with
  | nil => rfl
  | cons x h ih =>
    simp only [pairPenalty]
    rw [ih, ((h.map (fun t => if pairKey x.id t.id ∈ fp then w.forbidPair
      else 0))).sum_eq]
  | swap x y l =>
    simp only [pairPenalty, List.map_cons, List.sum_cons]
    rw [pairKey_comm y.id x.id]
    ring
  | trans _ _ ih1 ih2 => exact ih1.trans ih2

/-- C9: for every group, every permutation of its members, every
forbidden-pair set, target size and weights configuration,
`groupScore` returns the same value on the permuted group as on the
original (member order affects display only, never the score). -/
theorem groupScore_perm_invariant (g g' : List Student) (fp : Finset String)
    (t : ℕ) (w : Weights) (hp : List.Perm g g') :
    groupScore g fp t w = groupScore g' fp t w := by
  have hcnt : ∀ {K : Type} [DecidableEq K] (f : Student → K) (k : K),
      countBy g f k = countBy g' f k := by
    intro K _ f k
    exact (hp.map f).count_eq k
  simp only [groupScore]
  rw [pairPenalty_perm fp w hp, hp.length_eq,
    hcnt (·.gender) Gender.f, hcnt (·.gender) Gender.m,
    hcnt (·.gender) Gender.x, hcnt (·.level) Level.bachelor,
    hcnt (·.level) Level.master, hcnt (·.exchange) Exchange.yes,
    hcnt (·.exchange) Exchange.no]

/-- Witness for C9: reversing a concrete mixed group leaves the score
unchanged. -/
theorem groupScore_perm_invariant_witness :
    groupScore [studentG "a" Gender.f, studentG "b" Gender.m,
        studentNA "c"] ∅ 3 defaultWeights
      = groupScore [studentNA "c", studentG "b" Gender.m,
          studentG "a" Gender.f] ∅ 3 defaultWeights :=
  groupScore_perm_invariant
    [studentG "a" Gender.f, studentG "b" Gender.m, studentNA "c"]
    [studentNA "c", studentG "b" Gender.m, studentG "a" Gender.f]
    ∅ 3 defaultWeights (by decide)

/-! ### Characterizing the forbidden-pair set -/

theorem mem_buildForbiddenPairs (hist : List (List Student)) (k : String) :
    k ∈ buildForbiddenPairs hist ↔ ∃ g ∈ hist, k ∈ groupPairKeys g := by
  simp only [buildForbiddenPairs, List.mem_toFinset, List.mem_flatten,
    List.mem_map]
  constructor
  · rintro ⟨l, ⟨g, hg, rfl⟩, hk⟩
    exact ⟨g, hg, hk⟩
  · rintro ⟨g, hg, hk⟩
    exact ⟨groupPairKeys g, ⟨g, hg, rfl⟩, hk⟩

theorem mem_groupPairKeys (g : List Student) (k : String) :
    k ∈ groupPairKeys g ↔
      ∃ s t : Student, List.Sublist [s, t] g ∧ k = pairKey s.id t.id := by
  induction g with
  | nil =>
    simp only [groupPairKeys, List.not_mem_nil, false_iff]
    rintro ⟨s, t, hsub, -⟩
    simp [List.sublist_nil] at hsub
  | cons a rest ih =>
    simp only [groupPairKeys, List.mem_append, List.mem_map, ih]
    constructor
    · rintro (⟨t, ht, rfl⟩ | ⟨s, t, hsub, rfl⟩)
      · exact ⟨a, t, List.Sublist.cons₂ a (List.singleton_sublist.mpr ht), rfl⟩
      · exact ⟨s, t, hsub.cons a, rfl⟩
    · rintro ⟨s, t, hsub, rfl⟩
      cases hsub with
      | cons _ h => exact Or.inr ⟨s, t, h, rfl⟩
      | cons₂ _ h => exact Or.inl ⟨t, List.singleton_sublist.mp h, rfl⟩

theorem pair_sublist_iff (s t : α) (l : List α) :
    List.Sublist [s, t] l ↔
      ∃ i j : ℕ, i < j ∧ l[i]? = some s ∧ l[j]? = some t := by
  induction l with
  | nil => simp
  | cons a rest ih =>
    constructor
    · intro h
      cases h with
      | cons _ h' =>
        obtain ⟨i, j, hij, hi, hj⟩ := ih.mp h'
        exact ⟨i + 1, j + 1, by omega, by simpa using hi, by simpa using hj⟩
      | cons₂ _ h' =>
        obtain ⟨n, hn⟩ :=
          List.mem_iff_getElem?.mp (List.singleton_sublist.mp h')
        exact ⟨0, n + 1, Nat.succ_pos n, by simp, by simpa using hn⟩
    · rintro ⟨i, j, hij, hi, hj⟩
      cases i with
      | zero =>
        obtain ⟨j', rfl⟩ : ∃ j', j = j' + 1 := ⟨j - 1, by omega⟩
        rw [List.getElem?_cons_succ] at hj
        have ha : a = s := by
          simpa using hi
        subst ha
        exact List.Sublist.cons₂ a
          (List.singleton_sublist.mpr (List.getElem?_mem hj))
      | succ i' =>
        obtain ⟨j', rfl⟩ : ∃ j', j = j' + 1 := ⟨j - 1, by omega⟩
        rw [List.getElem?_cons_succ] at hi hj
        exact (ih.mpr ⟨i', j', by omega, hi, hj⟩).cons a

theorem pair_sublist_iff_fin (s t : α) (l : List α) :
    List.Sublist [s, t] l ↔
      ∃ i j : Fin l.length, i < j ∧ l.get i = s ∧ l.get j = t := by
  rw [pair_sublist_iff]
  constructor
  · rintro ⟨i, j, hij, hi, hj⟩
    obtain ⟨hib, hie⟩ := List.getElem?_eq_some.mp hi
    obtain ⟨hjb, hje⟩ := List.getElem?_eq_some.mp hj
    exact ⟨⟨i, hib⟩, ⟨j, hjb⟩, hij, hie, hje⟩
  · rintro ⟨i, j, hij, hi, hj⟩
    refine ⟨i, j, hij, ?_, ?_⟩
    · rw [List.getElem?_eq_some]
      exact ⟨i.isLt, hi⟩
    · rw [List.getElem?_eq_some]
      exact ⟨j.isLt, hj⟩

theorem sep_append_inj : ∀ {u p : List Char} {v q : List Char},
    '|' ∉ u → '|' ∉ v →
    u ++ '|' :: '|' :: v = p ++ '|' :: '|' :: q → p = u ∧ q = v := by
  intro u
  induction u with
  | nil =>
    intro p v q _ hv h
    cases p with
    | nil =>
      simp only [List.nil_append] at h
      injection h with _ h
      injection h with _ h
      exact ⟨rfl, h.symm⟩
    | cons c p' =>
      simp only [List.nil_append, List.cons_append] at h
      injection h with hc h
      cases p' with
      | nil =>
        simp only [List.nil_append] at h
        injection h with _ h
        exact absurd (h ▸ List.mem_cons_self '|' q) hv
      | cons c' p'' =>
        injection h with _ h
        have : '|' ∈ v := by
          rw [h]
          exact List.mem_append.mpr (Or.inr (List.mem_cons_self _ _))
        exact absurd this hv
  | cons c u' ih =>
    intro p v q hu hv h
    cases p with
    | nil =>
      simp only [List.nil_append, List.cons_append] at h
      injection h with hc _
      exact absurd (hc ▸ List.mem_cons_self c u') hu
    | cons d p' =>
      simp only [List.cons_append] at h
      injection h with hc h
      obtain ⟨h1, h2⟩ := ih (fun hm => hu (List.mem_cons_of_mem c hm)) hv h
      exact ⟨by rw [hc, h1], h2⟩

theorem pairKey_cases (x y : String) :
    pairKey x y = x ++ "||" ++ y ∨ pairKey x y = y ++ "||" ++ x := by
  unfold pairKey
  split
  · exact Or.inl rfl
  · exact Or.inr rfl

theorem sep_data (a b : String) :
    (a ++ "||" ++ b).data = a.data ++ '|' :: '|' :: b.data := by
  rw [String.data_append, String.data_append,
    show ("||" : String).data = ['|', '|'] from rfl, List.append_assoc]
  rfl

theorem pairKey_inj_of_barFree {x y u v : String}
    (hu : '|' ∉ u.data) (hv : '|' ∉ v.data)
    (h : pairKey x y = pairKey u v) :
    (x = u ∧ y = v) ∨ (x = v ∧ y = u) := by
  rcases pairKey_cases x y with hxy | hxy <;>
    rcases pairKey_cases u v with huv | huv <;>
    rw [hxy, huv] at h <;>
    have hd := congrArg String.data h.symm <;>
    rw [sep_data, sep_data] at hd
  · obtain ⟨h1, h2⟩ := sep_append_inj hu hv hd
    exact Or.inl ⟨String.ext h1, String.ext h2⟩
  · obtain ⟨h1, h2⟩ := sep_append_inj hv hu hd
    exact Or.inr ⟨String.ext h1, String.ext h2⟩
  · obtain ⟨h1, h2⟩ := sep_append_inj hu hv hd
    exact Or.inr ⟨String.ext h2, String.ext h1⟩
  · obtain ⟨h1, h2⟩ := sep_append_inj hv hu hd
    exact Or.inl ⟨String.ext h2, String.ext h1⟩

/-- Counterexample to C3 as stated: the canonical key is built by
string concatenation with the separator `||`, which ids containing `|`
can forge.  The history `[[{id "x|"}, {id "y"}]]` inserts the key
`"x|||y"`, which is also the canonical key of the unordered pair
`{"x", "|y"}` — yet no group of the history contains a member with id
`"x"` at any position. -/
theorem buildForbiddenPairs_collision_counterexample :
    pairKey "x" "|y" ∈ buildForbiddenPairs [[studentNA "x|", studentNA "y"]] ∧
    ∀ g ∈ [[studentNA "x|", studentNA "y"]], ∀ s ∈ g, s.id ≠ "x" :=
  ⟨by decide, by decide⟩

/-- C3, amended: for every list of historical groups in which no
member's id contains the character `|`, `buildForbiddenPairs` returns
a set that contains the canonical key of an unordered id pair `{x, y}`
if and only if some input group contains members at two distinct
positions whose ids are `x` and `y`. -/
theorem buildForbiddenPairs_spec (hist : List (List Student))
    (hbar : ∀ g ∈ hist, ∀ s ∈ g, '|' ∉ s.id.data) (x y : String) :
    pairKey x y ∈ buildForbiddenPairs hist ↔
      ∃ g ∈ hist, ∃ i j : Fin g.length, i ≠ j ∧
        (g.get i).id = x ∧ (g.get j).id = y := by
  rw [mem_buildForbiddenPairs]
  constructor
  · rintro ⟨g, hg, hk⟩
    rw [mem_groupPairKeys] at hk
    obtain ⟨s, t, hsub, hkey⟩ := hk
    obtain ⟨i, j, hij, hi, hj⟩ := (pair_sublist_iff_fin s t g).mp hsub
    have hs : '|' ∉ s.id.data := hbar g hg s (hsub.subset (by simp))
    have ht : '|' ∉ t.id.data := hbar g hg t (hsub.subset (by simp))
    rcases pairKey_inj_of_barFree hs ht hkey with ⟨hx, hy⟩ | ⟨hx, hy⟩
    · exact ⟨g, hg, i, j, Fin.ne_of_lt hij,
        by rw [hi, ← hx], by rw [hj, ← hy]⟩
    · exact ⟨g, hg, j, i, (Fin.ne_of_lt hij).symm,
        by rw [hj, ← hx], by rw [hi, ← hy]⟩
  · rintro ⟨g, hg, i, j, hij, hxi, hyj⟩
    refine ⟨g, hg, ?_⟩
    rw [mem_groupPairKeys]
    rcases lt_or_gt_of_ne hij with h | h
    · exact ⟨g.get i, g.get j,
        (pair_sublist_iff_fin _ _ g).mpr ⟨i, j, h, rfl, rfl⟩,
        by rw [hxi, hyj]⟩
    · refine ⟨g.get j, g.get i,
        (pair_sublist_iff_fin _ _ g).mpr ⟨j, i, h, rfl, rfl⟩, ?_⟩
      rw [hxi, hyj, pairKey_comm]

/-- Witness for the amended C3: the spec's concrete scenario — history
`[[A,B],[C,D]]` contains the pair `{A,B}` and none of the cross pairs
such as `{A,C}`. -/
theorem buildForbiddenPairs_spec_witness :
    pairKey "a" "b" ∈ buildForbiddenPairs
        [[studentNA "a", studentNA "b"], [studentNA "c", studentNA "d"]] ∧
    pairKey "a" "c" ∉ buildForbiddenPairs
        [[studentNA "a", studentNA "b"], [studentNA "c", studentNA "d"]] := by
  constructor
  · exact (buildForbiddenPairs_spec
      [[studentNA "a", studentNA "b"], [studentNA "c", studentNA "d"]]
      (by decide) "a" "b").mpr (by decide)
  · intro h
    exact absurd ((buildForbiddenPairs_spec
      [[studentNA "a", studentNA "b"], [studentNA "c", studentNA "d"]]
      (by decide) "a" "c").mp h) (by decide)

/-! ### The size profile of `chunkGroups` -/

theorem chunkGroupsAux_fuel_inv (s : ℕ) (hs : 1 ≤ s) :
    ∀ (f1 f2 : ℕ) (l : List α), l.length ≤ f1 → l.length ≤ f2 →
      chunkGroupsAux s f1 l = chunkGroupsAux s f2 l := by
  intro f1
  induction f1 with
  | zero =>
    intro f2 l h1 _
    have hl : l = [] := by
      cases l with
      | nil => rfl
      | cons a t => simp at h1
    subst hl
    cases f2 <;> rfl
  | succ f1 ih =>
    intro f2 l h1 h2
    cases l with
    | nil => cases f2 <;> rfl
    | cons x xs =>
      cases f2 with
      | zero => simp at h2
      | succ f2 =>
        simp only [chunkGroupsAux]
        congr 1
        apply ih
        · simp only [List.length_drop, List.length_cons]
          simp only [List.length_cons] at h1
          omega
        · simp only [List.length_drop, List.length_cons]
          simp only [List.length_cons] at h2
          omega

theorem chunkGroups_cons (l : List α) (s : ℕ) (hs : 1 ≤ s) (hne : l ≠ []) :
    chunkGroups l s = l.take s :: chunkGroups (l.drop s) s := by
  obtain ⟨s', rfl⟩ : ∃ s', s = s' + 1 := ⟨s - 1, by omega⟩
  cases l with
  | nil => exact absurd rfl hne
  | cons x xs =>
    show chunkGroupsAux (s' + 1) (x :: xs).length (x :: xs) = _
    simp only [List.length_cons, chunkGroupsAux]
    congr 1
    apply chunkGroupsAux_fuel_inv (s' + 1) hs
    · simp only [List.length_drop, List.length_cons]
      omega
    · exact le_refl _

theorem chunkGroups_lens (s : ℕ) (hs : 1 ≤ s) :
    ∀ (n : ℕ) (l : List α), l.length ≤ n →
      (chunkGroups l s).map List.length
        = List.replicate (l.length / s) s
          ++ (if l.length % s = 0 then [] else [l.length % s]) := by
  intro n
  induction n with
  | zero =>
    intro l hl
    have hnil : l = [] := by
      cases l with
      | nil => rfl
      | cons a t => simp at hl
    subst hnil
    simp [chunkGroups_nil]
  | succ n ih =>
    intro l hl
    rcases eq_or_ne l [] with rfl | hne
    · simp [chunkGroups_nil]
    · have hlen0 : l.length ≠ 0 := fun h => hne (List.length_eq_zero.1 h)
      rw [chunkGroups_cons l s hs hne]
      simp only [List.map_cons]
      rw [ih (l.drop s) (by simp only [List.length_drop]; omega)]
      rw [List.length_take, List.length_drop]
      rcases lt_trichotomy l.length s with hlt | heq | hgt
      · have h1 : min s l.length = l.length := min_eq_right (le_of_lt hlt)
        have h2 : l.length - s = 0 := by omega
        have h3 : l.length / s = 0 := Nat.div_eq_of_lt hlt
        have h4 : l.length % s = l.length := Nat.mod_eq_of_lt hlt
        rw [show s ⊓ l.length = min s l.length from rfl, h1, h2, h3, h4]
        simp [hlen0]
      · have h1 : min s l.length = s := min_eq_left (le_of_eq heq.symm)
        have h2 : l.length - s = 0 := by omega
        have h3 : l.length / s = 1 := by rw [heq]; exact Nat.div_self (by omega)
        have h4 : l.length % s = 0 := by rw [heq]; exact Nat.mod_self s
        rw [show s ⊓ l.length = min s l.length from rfl, h1, h2, h3, h4]
        simp
      · have h1 : min s l.length = s := min_eq_left (le_of_lt hgt)
        have h3 : l.length / s = (l.length - s) / s + 1 :=
          Nat.div_eq_sub_div (by omega) (le_of_lt hgt)
        rw [show s ⊓ l.length = min s l.length from rfl, h1, h3,
          Nat.mod_eq_sub_mod (le_of_lt hgt), List.replicate_succ]
        simp

theorem ceil_div_split (n s : ℕ) (hs : 1 ≤ s) :
    n / s + (if n % s = 0 then 0 else 1) = (n + s - 1) / s := by
  have hd := Nat.div_add_mod n s
  have hm : n % s < s := Nat.mod_lt n (by omega)
  by_cases h : n % s = 0
  · rw [if_pos h, add_zero]
    have he : n + s - 1 = (s - 1) + s * (n / s) := by omega
    rw [he, Nat.add_mul_div_left _ _ (show 0 < s by omega),
      Nat.div_eq_of_lt (show s - 1 < s by omega), zero_add]
  · rw [if_neg h]
    have he : n + s - 1 = (n % s - 1) + s * (n / s + 1) := by
      rw [Nat.mul_add, Nat.mul_one]
      omega
    rw [he, Nat.add_mul_div_left _ _ (show 0 < s by omega),
      Nat.div_eq_of_lt (show n % s - 1 < s by omega), zero_add]

/-- C10: for every non-empty entity list of length `n`, target size
`s ≥ 2`, iteration budget, forbidden-pair set, weights and random
choices, the returned partition has exactly `⌈n/s⌉` groups, every
group except possibly the last has length `s`, the last group has
length `n % s` when that is nonzero (and `s` otherwise), and no
returned group is empty: the 1-for-1 swaps preserve the size profile
established by the initial chunking. -/
theorem optimize_size_profile (students : List Student) (groupSize : ℕ)
    (fp : Finset String) (attempts : ℕ) (w : Weights) (rnd : RandomSource)
    (hne : students ≠ []) (hsize : 2 ≤ groupSize)
    (gs : List (List Student)) (sc : ℚ)
    (hres : generateGroupsOptimized students groupSize fp attempts w rnd
      = Except.ok (gs, sc)) :
    gs.length = (students.length + groupSize - 1) / groupSize ∧
    (∀ k, k + 1 < gs.length → (gs.getD k []).length = groupSize) ∧
    (gs.getD (gs.length - 1) []).length
      = (if students.length % groupSize = 0 then groupSize
         else students.length % groupSize) ∧
    ∀ g ∈ gs, g ≠ [] := by
  have hmap := (optimize_best_facts students groupSize fp attempts w rnd
    hsize gs sc hres).2.1
  have hslen : (shuffle students rnd.shuf).length = students.length :=
    (shuffle_perm students rnd.shuf).length_eq
  have hprof := chunkGroups_lens groupSize (by omega)
    (shuffle students rnd.shuf).length (shuffle students rnd.shuf) (le_refl _)
  rw [hslen] at hprof
  have hd := Nat.div_add_mod students.length groupSize
  have hmlt : students.length % groupSize < groupSize :=
    Nat.mod_lt _ (by omega)
  have hceil := ceil_div_split students.length groupSize (by omega)
  have hn1 : 1 ≤ students.length := by
    cases students with
    | nil => exact absurd rfl hne
    | cons a t => simp
  obtain ⟨q, hqdef⟩ : ∃ q, students.length / groupSize = q := ⟨_, rfl⟩
  obtain ⟨r, hrdef⟩ : ∃ r, students.length % groupSize = r := ⟨_, rfl⟩
  rw [hqdef, hrdef] at hd
  rw [hrdef] at hmlt
  rw [hqdef, hrdef] at hceil
  rw [hqdef, hrdef] at hprof
  rw [hrdef]
  have hm : gs.map List.length
      = List.replicate q groupSize ++ (if r = 0 then [] else [r]) :=
    hmap.trans hprof
  have hproflen : gs.length
      = (List.replicate q groupSize ++ (if r = 0 then [] else [r])).length := by
    have hc := congrArg List.length hm
    rwa [List.length_map] at hc
  have hdelta : gs.length = q + (if r = 0 then 0 else 1) := by
    rw [hproflen, List.length_append, List.length_replicate]
    congr 1
    split <;> simp
  have hkmap : ∀ k, k < gs.length →
      (gs.getD k []).length = (gs.map List.length).getD k 0 := by
    intro k hk
    rw [List.getD_eq_getElem _ _ hk,
      List.getD_eq_getElem _ _ (by simpa using hk), List.getElem_map]
  have hdivpos : r = 0 → 1 ≤ q := by
    intro h0
    by_contra hq
    have hq0 : q = 0 := by omega
    rw [h0, hq0, Nat.mul_zero, zero_add] at hd
    omega
  have hdle : (if r = 0 then 0 else 1) ≤ 1 := by split <;> omega
  refine ⟨hdelta.trans hceil, ?_, ?_, ?_⟩
  · intro k hk1
    have hk : k < gs.length := by omega
    have hkq : k < q := by omega
    have hbound : k < (List.replicate q groupSize
        ++ (if r = 0 then [] else [r])).length := by
      rw [← hproflen]; exact hk
    have hrep : k < (List.replicate q groupSize).length := by
      rw [List.length_replicate]; exact hkq
    rw [hkmap k hk, hm, List.getD_eq_getElem _ _ hbound,
      List.getElem_append_left hrep, List.getElem_replicate]
  · have hpos : 1 ≤ gs.length := by
      by_cases h : r = 0
      · have h2 := hdivpos h
        rw [hdelta, if_pos h]
        omega
      · rw [hdelta, if_neg h]
        omega
    have hkl : gs.length - 1 < gs.length := by omega
    by_cases h : r = 0
    · rw [if_pos h]
      rw [if_pos h] at hm hproflen
      have hbound : gs.length - 1
          < (List.replicate q groupSize ++ ([] : List ℕ)).length := by
        rw [← hproflen]; exact hkl
      have hlen2 : gs.length = q := by rw [hdelta, if_pos h, add_zero]
      have hrep : gs.length - 1 < (List.replicate q groupSize).length := by
        rw [List.length_replicate]
        have h2 := hdivpos h
        omega
      rw [hkmap _ hkl, hm, List.getD_eq_getElem _ _ hbound,
        List.getElem_append_left hrep, List.getElem_replicate]
    · rw [if_neg h]
      rw [if_neg h] at hm hproflen
      have hlen2 : gs.length = q + 1 := by rw [hdelta, if_neg h]
      have hidx : gs.length - 1 = q := by omega
      have hbound : gs.length - 1
          < (List.replicate q groupSize ++ [r]).length := by
        rw [← hproflen]; exact hkl
      have hge : (List.replicate q groupSize).length ≤ gs.length - 1 := by
        rw [List.length_replicate]; omega
      rw [hkmap _ hkl, hm, List.getD_eq_getElem _ _ hbound,
        List.getElem_append_right hge]
      simp [List.length_replicate, hidx]
  · intro g hg
    obtain ⟨⟨k, hk⟩, hgk⟩ := List.mem_iff_get.mp hg
    have hglen : g.length = (gs.map List.length).getD k 0 := by
      rw [← hkmap k hk, List.getD_eq_getElem _ _ hk]
      exact congrArg List.length hgk.symm
    have hbound : k < (List.replicate q groupSize
        ++ (if r = 0 then [] else [r])).length := by
      rw [← hproflen]; exact hk
    rw [hm, List.getD_eq_getElem _ _ hbound] at hglen
    have hmem := List.getElem_mem hbound
    set v := (List.replicate q groupSize ++ (if r = 0 then [] else [r]))[k]
      with hvdef
    intro hgnil
    rw [hgnil] at hglen
    simp only [List.length_nil] at hglen
    rcases List.mem_append.mp hmem with hmr | hmi
    · have hv := List.eq_of_mem_replicate hmr
      omega
    · by_cases h : r = 0
      · rw [if_pos h] at hmi
        exact absurd hmi (List.not_mem_nil _)
      · rw [if_neg h] at hmi
        have hv := List.mem_singleton.mp hmi
        omega

/-- Witness for C10: a five-student roster with target size 2 yields
three groups of sizes 2, 2, 1, none empty. -/
theorem optimize_size_profile_witness :
    ([[studentNA "b", studentNA "c"], [studentNA "d", studentNA "e"],
        [studentNA "a"]].length
      = ([studentNA "a", studentNA "b", studentNA "c", studentNA "d",
          studentNA "e"].length + 2 - 1) / 2) ∧
    (∀ k, k + 1 < [[studentNA "b", studentNA "c"], [studentNA "d",
        studentNA "e"], [studentNA "a"]].length →
      ([[studentNA "b", studentNA "c"], [studentNA "d", studentNA "e"],
          [studentNA "a"]].getD k []).length = 2) ∧
    (([[studentNA "b", studentNA "c"], [studentNA "d", studentNA "e"],
        [studentNA "a"]].getD
        ([[studentNA "b", studentNA "c"], [studentNA "d", studentNA "e"],
          [studentNA "a"]].length - 1) []).length
      = if [studentNA "a", studentNA "b", studentNA "c", studentNA "d",
            studentNA "e"].length % 2 = 0 then 2
        else [studentNA "a", studentNA "b", studentNA "c", studentNA "d",
            studentNA "e"].length % 2) ∧
    ∀ g ∈ [[studentNA "b", studentNA "c"], [studentNA "d", studentNA "e"],
        [studentNA "a"]], g ≠ ([] : List Student) :=
  optimize_size_profile
    [studentNA "a", studentNA "b", studentNA "c", studentNA "d", studentNA "e"]
    2 (buildForbiddenPairs [[studentNA "a", studentNA "b"]]) 0 defaultWeights
    zeroRand (by decide) (by omega)
    [[studentNA "b", studentNA "c"], [studentNA "d", studentNA "e"],
      [studentNA "a"]] 1 (by with_unfolding_all rfl)

end GroupMaker
